import Mathlib

/-!
Verification of the Alpha-Discovery factor evaluation engine.

Shallow embedding of the relevant parts of
`alpha/utils/metrics.py`, `alpha/backtest/factor_test.py`,
`alpha/backtest/portfolio.py` and `alpha/backtest/analysis.py`.

Numeric series are modelled as `List ℚ` (pandas `Series` of floats);
missing values (`NaN`) are modelled as `none` in `Option`-valued lists.
Quantities that the Python code computes with `sqrt` or a real power are
modelled in `ℝ`.
-/

namespace AlphaDiscovery

/-- `series.mean()`: arithmetic mean of a list (pandas mean of a
non-empty all-present series). -/
def meanQ (xs : List ℚ) : ℚ := xs.sum / xs.length

/-- `series.std()` squared: the sample variance with `ddof = 1`
(pandas default), `Σ (x - mean)² / (n - 1)`. -/
def sampleVar (xs : List ℚ) : ℚ :=
  (xs.map (fun x => (x - meanQ xs) ^ 2)).sum / ((xs.length : ℚ) - 1)

/-- `(1 + returns).cumprod()` auxiliary: running product with accumulator. -/
def cumprodAux (acc : ℚ) : List ℚ → List ℚ
  | [] => []
  | x :: xs => (acc * (1 + x)) :: cumprodAux (acc * (1 + x)) xs

/-- `(1 + returns).cumprod()`: cumulative return curve from periodic
returns, starting implicitly at 1 before the first observation. -/
def cumprod1p (r : List ℚ) : List ℚ := cumprodAux 1 r

/-- `(1 + returns).prod()`. -/
def prod1p (r : List ℚ) : ℚ := (r.map (fun x => 1 + x)).prod

/-- `series.expanding().max()` auxiliary. -/
def runningMaxAux (m : ℚ) : List ℚ → List ℚ
  | [] => []
  | x :: xs => (max m x) :: runningMaxAux (max m x) xs

/-- `cumulative_returns.expanding().max()`: running maximum. -/
def runningMax : List ℚ → List ℚ
  | [] => []
  | x :: xs => x :: runningMaxAux x xs

/-- `(cumulative_returns - running_max) / running_max`: the drawdown series. -/
def drawdowns (cum : List ℚ) : List ℚ :=
  List.zipWith (fun c m => (c - m) / m) cum (runningMax cum)

/-- `series.min()` of a non-empty series (pandas min). -/
def listMin : List ℚ → ℚ
  | [] => 0
  | x :: xs => xs.foldl min x

/-- `MetricsCalculator.max_drawdown` (metrics.py lines 67-82) and
`PerformanceAnalyzer._max_drawdown` (analysis.py lines 67-72):
`abs(drawdown.min())`. -/
def max_drawdown (cum : List ℚ) : ℚ := |listMin (drawdowns cum)|

/-- `FactorBacktest._max_drawdown` (factor_test.py lines 391-396):
`drawdown.min()` — note: no `abs`.  This is the value stored under
`max_drawdown` in the `group_backtest` result bundle. -/
def fb_max_drawdown (cum : List ℚ) : ℚ := listMin (drawdowns cum)

/- ### Helper lemmas for drawdown -/

lemma listMin_le_head (x : ℚ) (xs : List ℚ) : listMin (x :: xs) ≤ x := by
  induction xs generalizing x with
  | nil => simp [listMin]
  | cons y ys ih =>
    have h := ih (min x y)
    simp only [listMin] at h ⊢
    exact le_trans h (min_le_left x y)

lemma listMin_mem (x : ℚ) (xs : List ℚ) :
    listMin (x :: xs) ∈ x :: xs := by
  induction xs generalizing x with
  | nil => simp [listMin]
  | cons y ys ih =>
    have h := ih (min x y)
    rw [List.mem_cons] at h
    have hfold : listMin (x :: y :: ys) = listMin (min x y :: ys) := by
      simp [listMin]
    rw [hfold]
    rcases h with h | h
    · rw [h]
      rcases min_choice x y with hc | hc <;> rw [hc] <;> simp
    · exact List.mem_cons_of_mem _ (List.mem_cons_of_mem _ h)

lemma runningMaxAux_le (m : ℚ) (xs : List ℚ) :
    ∀ p ∈ List.zipWith (fun c mx => (c, mx)) xs (runningMaxAux m xs), p.1 ≤ p.2 := by
  induction xs generalizing m with
  | nil => simp [runningMaxAux]
  | cons x xs ih =>
    intro p hp
    simp only [runningMaxAux, List.zipWith_cons_cons, List.mem_cons] at hp
    rcases hp with h | h
    · rw [h]; exact le_max_right _ _
    · exact ih (max m x) p h

lemma runningMaxAux_pos (m : ℚ) (xs : List ℚ) (hm : 0 < m)
    (hxs : ∀ x ∈ xs, 0 < x) : ∀ y ∈ runningMaxAux m xs, 0 < y := by
  induction xs generalizing m with
  | nil => simp [runningMaxAux]
  | cons x xs ih =>
    intro y hy
    simp only [runningMaxAux, List.mem_cons] at hy
    rcases hy with h | h
    · rw [h]; exact lt_max_of_lt_left hm
    · exact ih (max m x) (lt_max_of_lt_left hm)
        (fun z hz => hxs z (List.mem_cons_of_mem _ hz)) y h

lemma drawdownsAux_nonpos (m : ℚ) (xs : List ℚ) (hm : 0 < m)
    (hxs : ∀ x ∈ xs, 0 < x) :
    ∀ d ∈ List.zipWith (fun c mx => (c - mx) / mx) xs (runningMaxAux m xs),
      d ≤ 0 := by
  induction xs generalizing m with
  | nil => simp [runningMaxAux]
  | cons x xs ih =>
    intro d hd
    simp only [runningMaxAux, List.zipWith_cons_cons, List.mem_cons] at hd
    rcases hd with h | h
    · rw [h]
      have hmx : 0 < max m x := lt_max_of_lt_left hm
      refine div_nonpos_of_nonpos_of_nonneg ?_ hmx.le
      simp only [sub_nonpos]
      exact le_max_right m x
    · exact ih (max m x) (lt_max_of_lt_left hm)
        (fun z hz => hxs z (List.mem_cons_of_mem _ hz)) d h

/-- Every entry of the drawdown series of a positive cumulative curve is ≤ 0. -/
lemma drawdowns_nonpos (cum : List ℚ) (hpos : ∀ c ∈ cum, 0 < c) :
    ∀ d ∈ drawdowns cum, d ≤ 0 := by
  intro d hd
  cases cum with
  | nil => simp [drawdowns, runningMax] at hd
  | cons c cs =>
    simp only [drawdowns, runningMax, List.zipWith_cons_cons, List.mem_cons] at hd
    rcases hd with h | h
    · rw [h]; simp
    · exact drawdownsAux_nonpos c cs (hpos c (by simp))
        (fun z hz => hpos z (List.mem_cons_of_mem _ hz)) d h

lemma cumprodAux_pos (acc : ℚ) (r : List ℚ) (hacc : 0 < acc)
    (hr : ∀ x ∈ r, -1 < x) : ∀ c ∈ cumprodAux acc r, 0 < c := by
  induction r generalizing acc with
  | nil => simp [cumprodAux]
  | cons x xs ih =>
    intro c hc
    have hx : (0:ℚ) < 1 + x := by
      have := hr x (by simp)
      linarith
    simp only [cumprodAux, List.mem_cons] at hc
    rcases hc with h | h
    · rw [h]; exact mul_pos hacc hx
    · exact ih (acc * (1 + x)) (mul_pos hacc hx)
        (fun z hz => hr z (List.mem_cons_of_mem _ hz)) c h

/-- A cumulative curve built from returns all > −1 is entrywise positive. -/
lemma cumprod1p_pos (r : List ℚ) (hr : ∀ x ∈ r, -1 < x) :
    ∀ c ∈ cumprod1p r, 0 < c :=
  cumprodAux_pos 1 r one_pos hr

/-- For a non-empty cumulative curve, the minimum drawdown is ≤ 0
(the first drawdown entry is exactly 0). -/
lemma listMin_drawdowns_nonpos (cum : List ℚ) (hne : cum ≠ []) :
    listMin (drawdowns cum) ≤ 0 := by
  cases cum with
  | nil => exact absurd rfl hne
  | cons c cs =>
    have hhead : drawdowns (c :: cs) =
        ((c - c) / c) :: List.zipWith (fun x m => (x - m) / m) cs
          (runningMaxAux c cs) := by
      simp [drawdowns, runningMax]
    rw [hhead]
    have := listMin_le_head ((c - c) / c)
      (List.zipWith (fun x m => (x - m) / m) cs (runningMaxAux c cs))
    simpa using this

/-- C1 (amended): for any cumulative curve built from periodic returns all
> −1, `MetricsCalculator.max_drawdown` equals `|min((cum − runmax)/runmax)|`
and is non-negative; but the `max_drawdown` stored in the `group_backtest`
result bundle is computed by `FactorBacktest._max_drawdown`, which omits the
absolute value: it equals `min((cum − runmax)/runmax)` itself, hence is
non-positive — the negation of the metrics value. -/
theorem c1_max_drawdown_amended (r : List ℚ) (hne : r ≠ [])
    (hr : ∀ x ∈ r, -1 < x) :
    0 ≤ max_drawdown (cumprod1p r) ∧
    max_drawdown (cumprod1p r) = |listMin (drawdowns (cumprod1p r))| ∧
    fb_max_drawdown (cumprod1p r) = -(max_drawdown (cumprod1p r)) ∧
    fb_max_drawdown (cumprod1p r) ≤ 0 := by
  have hcum_ne : cumprod1p r ≠ [] := by
    cases r with
    | nil => exact absurd rfl hne
    | cons x xs => simp [cumprod1p, cumprodAux]
  have hmin : listMin (drawdowns (cumprod1p r)) ≤ 0 :=
    listMin_drawdowns_nonpos _ hcum_ne
  refine ⟨abs_nonneg _, rfl, ?_, ?_⟩
  · simp only [fb_max_drawdown, max_drawdown]
    rw [abs_of_nonpos hmin, neg_neg]
  · exact hmin

/-- C1 witness: concrete instantiation at the return series `[0, −1/2]`. -/
theorem c1_max_drawdown_amended_witness :
    0 ≤ max_drawdown (cumprod1p [0, -1/2]) ∧
    max_drawdown (cumprod1p [0, -1/2]) =
      |listMin (drawdowns (cumprod1p [0, -1/2]))| ∧
    fb_max_drawdown (cumprod1p [0, -1/2]) =
      -(max_drawdown (cumprod1p [0, -1/2])) ∧
    fb_max_drawdown (cumprod1p [0, -1/2]) ≤ 0 :=
  c1_max_drawdown_amended [0, -1/2] (by simp)
    (by intro x hx; simp only [List.mem_cons, List.not_mem_nil, or_false] at hx
        rcases hx with h | h <;> rw [h] <;> norm_num)

/-- C1 counterexample: the claim "the `max_drawdown` reported by the
backtest result bundle is ≥ 0" is false: for returns `[0, −1/2]`
(both > −1), `FactorBacktest._max_drawdown` of the cumulative curve is
`−1/2 < 0`. -/
theorem c1_bundle_drawdown_negative :
    (∀ x ∈ [(0:ℚ), -1/2], -1 < x) ∧
    fb_max_drawdown (cumprod1p [0, -1/2]) = -(1/2) ∧
    ¬ (0 ≤ fb_max_drawdown (cumprod1p [0, -1/2])) := by
  have hval : fb_max_drawdown (cumprod1p [0, -1/2]) = -(1/2) := by
    have h1 : cumprod1p [(0:ℚ), -1/2] = [1, 1/2] := by
      norm_num [cumprod1p, cumprodAux]
    rw [fb_max_drawdown, h1]
    have h2 : runningMax [(1:ℚ), 1/2] = [1, 1] := by
      norm_num [runningMax, runningMaxAux, max_def]
    rw [drawdowns, h2]
    norm_num [listMin]
  refine ⟨?_, hval, ?_⟩
  · intro x hx
    simp only [List.mem_cons, List.not_mem_nil, or_false] at hx
    rcases hx with h | h <;> rw [h] <;> norm_num
  · rw [hval]; norm_num

/- ### Weight handling (portfolio.py) -/

/-- `MultiFactorBacktest.__init__` weight handling (portfolio.py lines
41-48).  `none` models `weights=None` (equal weight `1/n`); `some ws`
models an explicit dict, normalized by the comprehension
`{k: v/total_weight for k, v in weights.items()}`.  The division is
executed once per entry, so a zero total raises an uncaught
`ZeroDivisionError` (modelled as `Except.error`) only when the dict has
at least one entry; the empty dict performs no division and is silently
accepted as `{}`. -/
def initWeights (factors : List String) :
    Option (List (String × ℚ)) → Except String (List (String × ℚ))
  | none => .ok (factors.map (fun nm => (nm, 1 / (factors.length : ℚ))))
  | some ws =>
      if ws ≠ [] ∧ (ws.map Prod.snd).sum = 0 then
        .error "ZeroDivisionError: float division by zero"
      else .ok (ws.map (fun kv => (kv.1, kv.2 / (ws.map Prod.snd).sum)))

lemma sum_map_div (l : List ℚ) (t : ℚ) :
    (l.map (fun x => x / t)).sum = l.sum / t := by
  induction l with
  | nil => simp
  | cons x xs ih => simp [ih, add_div]

/-- C3: for any explicit weights map with positive total, the normalized
weights used by `MultiFactorBacktest` sum to 1; with no weights map each
of the `n` factors receives weight `1/n`. -/
theorem c3_weight_normalization (factors : List String)
    (ws : List (String × ℚ)) (hpos : 0 < (ws.map Prod.snd).sum) :
    (∃ nw, initWeights factors (some ws) = Except.ok nw ∧
      (nw.map Prod.snd).sum = 1 ∧
      nw = ws.map (fun kv => (kv.1, kv.2 / (ws.map Prod.snd).sum))) ∧
    (∀ fs : List String, initWeights fs none =
      Except.ok (fs.map (fun nm => (nm, 1 / (fs.length : ℚ))))) := by
  constructor
  · refine ⟨ws.map (fun kv => (kv.1, kv.2 / (ws.map Prod.snd).sum)),
      ?_, ?_, rfl⟩
    · rw [initWeights, if_neg (fun h => ne_of_gt hpos h.2)]
    · have hmap : (ws.map (fun kv => (kv.1, kv.2 / (ws.map Prod.snd).sum))).map
          Prod.snd = (ws.map Prod.snd).map
            (fun v => v / (ws.map Prod.snd).sum) := by
        simp [List.map_map, Function.comp]
      rw [hmap, sum_map_div, div_self (ne_of_gt hpos)]
  · intro fs
    rfl

/-- C3 witness: two factors with explicit weights `[("A",1),("B",3)]`. -/
theorem c3_weight_normalization_witness :
    (∃ nw, initWeights ["A", "B"] (some [("A", 1), ("B", 3)]) =
        Except.ok nw ∧ (nw.map Prod.snd).sum = 1 ∧
      nw = [("A", (1:ℚ)), ("B", 3)].map
        (fun kv => (kv.1, kv.2 /
          ([("A", (1:ℚ)), ("B", 3)].map Prod.snd).sum))) ∧
    (∀ fs : List String, initWeights fs none =
      Except.ok (fs.map (fun nm => (nm, 1 / (fs.length : ℚ))))) :=
  c3_weight_normalization ["A", "B"] [("A", 1), ("B", 3)] (by norm_num)

/-- C4 (amended): an explicit weights map with at least one entry whose
values sum to zero makes `MultiFactorBacktest.__init__` fail immediately
(an uncaught division error is raised during construction); no
normalized weights map — and not the equal-weight default — is ever
produced.  The empty explicit map, whose values also sum to zero, is the
exception: the comprehension performs no division and is silently
accepted. -/
theorem c4_zero_weights_error (factors : List String)
    (ws : List (String × ℚ)) (hne : ws ≠ [])
    (hz : (ws.map Prod.snd).sum = 0) :
    initWeights factors (some ws) =
      Except.error "ZeroDivisionError: float division by zero" ∧
    (∀ nw, initWeights factors (some ws) ≠ Except.ok nw) := by
  have herr : initWeights factors (some ws) =
      Except.error "ZeroDivisionError: float division by zero" := by
    rw [initWeights, if_pos ⟨hne, hz⟩]
  exact ⟨herr, fun nw h => by rw [herr] at h; exact Except.noConfusion h⟩

/-- C4 witness: all-zero weights `[("A",0),("B",0)]`. -/
theorem c4_zero_weights_error_witness :
    initWeights ["A", "B"] (some [("A", 0), ("B", 0)]) =
      Except.error "ZeroDivisionError: float division by zero" ∧
    (∀ nw, initWeights ["A", "B"] (some [("A", 0), ("B", 0)]) ≠
      Except.ok nw) :=
  c4_zero_weights_error ["A", "B"] [("A", 0), ("B", 0)] (by simp)
    (by norm_num)

/-- C4 counterexample: the claim as stated is false at the empty explicit
weights map: its values sum to zero, yet `__init__` does not fail — the
normalization comprehension iterates zero times, so no division is
executed and the empty weights map is silently kept. -/
theorem c4_empty_weights_no_failure :
    ((([] : List (String × ℚ)).map Prod.snd).sum = 0) ∧
    initWeights ["A", "B"] (some []) = Except.ok [] ∧
    (∀ e, initWeights ["A", "B"] (some []) ≠ Except.error e) := by
  have hok : initWeights ["A", "B"] (some ([] : List (String × ℚ))) =
      Except.ok [] := by
    rw [initWeights, if_neg (fun h => h.1 rfl)]
    rfl
  exact ⟨rfl, hok, fun e h => by rw [hok] at h; exact Except.noConfusion h⟩

/- ### Composite factor (portfolio.py lines 114-122) -/

/-- `MultiFactorBacktest.build_composite_factor` weighted-sum step:
`composite = Series(0)`; for each `(name, weight)`:
`composite += all_factors[name].fillna(0) * weight`.  The index is
modelled as `0, …, n−1`; `data name i` is the (possibly missing)
standardized value of factor `name` at index key `i`. -/
def build_composite_factor (n : ℕ) (weights : List (String × ℚ))
    (data : String → ℕ → Option ℚ) : List ℚ :=
  (List.range n).map (fun i =>
    (weights.map (fun kv => ((data kv.1 i).getD 0) * kv.2)).sum)

/-- The concrete two-instrument, two-factor layout of spec scenario
example 4: `A = [1, NaN]`, `B = [NaN, 1]`. -/
def exampleData : String → ℕ → Option ℚ := fun nm i =>
  if nm = "A" ∧ i = 0 then some 1
  else if nm = "B" ∧ i = 1 then some 1 else none

/-- C5: at each key, the composite is the weighted sum of per-factor
values with missing (`NaN`) values contributing 0; with weights
`{A: 1/2, B: 1/2}`, `A = [1, NaN]`, `B = [NaN, 1]` the composite is
`[1/2, 1/2]`. -/
theorem c5_composite_factor (n : ℕ) (weights : List (String × ℚ))
    (data : String → ℕ → Option ℚ) (i : ℕ) (hi : i < n) :
    (build_composite_factor n weights data).getD i 0 =
      (weights.map (fun kv => ((data kv.1 i).getD 0) * kv.2)).sum ∧
    (∀ k w, (k, w) ∈ weights → data k i = none →
      ((data k i).getD 0) * w = 0) ∧
    build_composite_factor 2 [("A", 1/2), ("B", 1/2)] exampleData =
      [1/2, 1/2] := by
  refine ⟨?_, ?_, ?_⟩
  · rw [build_composite_factor, List.getD_eq_getElem?_getD,
      List.getElem?_map, List.getElem?_range hi]
    rfl
  · intro k w _ hnone
    rw [hnone]
    simp
  · show (List.range 2).map _ = _
    norm_num [List.range_succ, exampleData]
    simp

/-- C5 witness: instantiation at `n = 2`, `i = 0`, equal weights. -/
theorem c5_composite_factor_witness :
    (build_composite_factor 2 [("A", 1/2), ("B", 1/2)]
        exampleData).getD 0 0 =
      ([("A", (1:ℚ)/2), ("B", 1/2)].map
        (fun kv => ((exampleData kv.1 0).getD 0) * kv.2)).sum ∧
    (∀ k w, (k, w) ∈ [("A", (1:ℚ)/2), ("B", 1/2)] →
      exampleData k 0 = none → ((exampleData k 0).getD 0) * w = 0) ∧
    build_composite_factor 2 [("A", 1/2), ("B", 1/2)] exampleData =
      [1/2, 1/2] :=
  c5_composite_factor 2 [("A", 1/2), ("B", 1/2)] exampleData 0 (by norm_num)

/- ### Sharpe-based weight optimizer (portfolio.py lines 299-311) -/

/-- `PortfolioOptimizer.optimize_weights_sharpe`: clip each factor's
long-short Sharpe at 0 (`max(0, sharpe)`); if the clipped total is 0 use
equal weights `1/n`, else divide each clipped value by the total. -/
def optimize_weights_sharpe (sharpes : List (String × ℚ)) :
    List (String × ℚ) :=
  let clipped := sharpes.map (fun kv => (kv.1, max 0 kv.2))
  if (clipped.map Prod.snd).sum = 0 then
    clipped.map (fun kv => (kv.1, 1 / (clipped.length : ℚ)))
  else clipped.map (fun kv => (kv.1, kv.2 / (clipped.map Prod.snd).sum))

lemma clipped_total_eq (sharpes : List (String × ℚ)) :
    ((sharpes.map (fun kv => (kv.1, max 0 kv.2))).map Prod.snd).sum =
      (sharpes.map (fun kv => max 0 kv.2)).sum := by
  simp [List.map_map, Function.comp_def]

/-- C7: the optimizer returns weights proportional to `max(0, Sharpe)`
normalized to sum 1 whenever some factor has positive Sharpe, and equal
weights `1/n` when every factor's Sharpe is ≤ 0. -/
theorem c7_optimize_weights_sharpe (sharpes : List (String × ℚ)) :
    ((∃ kv ∈ sharpes, 0 < kv.2) →
      optimize_weights_sharpe sharpes = sharpes.map (fun kv =>
        (kv.1, max 0 kv.2 / (sharpes.map (fun kv2 => max 0 kv2.2)).sum)) ∧
      ((optimize_weights_sharpe sharpes).map Prod.snd).sum = 1) ∧
    ((∀ kv ∈ sharpes, kv.2 ≤ 0) →
      optimize_weights_sharpe sharpes =
        sharpes.map (fun kv => (kv.1, 1 / (sharpes.length : ℚ)))) := by
  constructor
  · intro ⟨kv0, hkv0, hpos0⟩
    have htot : 0 < (sharpes.map (fun kv => max 0 kv.2)).sum := by
      have hnn : ∀ x ∈ sharpes.map (fun kv => max 0 kv.2), 0 ≤ x := by
        intro x hx
        obtain ⟨kv, _, rfl⟩ := List.mem_map.mp hx
        exact le_max_left 0 kv.2
      have hle : max 0 kv0.2 ≤ (sharpes.map (fun kv => max 0 kv.2)).sum :=
        List.single_le_sum hnn _ (List.mem_map_of_mem _ hkv0)
      exact lt_of_lt_of_le (lt_max_of_lt_right hpos0) hle
    have hne : ((sharpes.map (fun kv => (kv.1, max 0 kv.2))).map
        Prod.snd).sum ≠ 0 := by
      rw [clipped_total_eq]; exact ne_of_gt htot
    have heq : optimize_weights_sharpe sharpes = sharpes.map (fun kv =>
        (kv.1, max 0 kv.2 / (sharpes.map (fun kv2 => max 0 kv2.2)).sum)) := by
      rw [optimize_weights_sharpe, if_neg hne]
      rw [clipped_total_eq, List.map_map]
      rfl
    refine ⟨heq, ?_⟩
    rw [heq]
    have hmap : (sharpes.map (fun kv =>
        (kv.1, max 0 kv.2 / (sharpes.map (fun kv2 => max 0 kv2.2)).sum))).map
          Prod.snd = (sharpes.map (fun kv => max 0 kv.2)).map
            (fun v => v / (sharpes.map (fun kv2 => max 0 kv2.2)).sum) := by
      simp [List.map_map, Function.comp]
    rw [hmap, sum_map_div, div_self (ne_of_gt htot)]
  · intro hle
    have hz : ((sharpes.map (fun kv => (kv.1, max 0 kv.2))).map
        Prod.snd).sum = 0 := by
      rw [clipped_total_eq]
      apply List.sum_eq_zero
      intro x hx
      obtain ⟨kv, hkv, rfl⟩ := List.mem_map.mp hx
      exact max_eq_left (hle kv hkv)
    rw [optimize_weights_sharpe, if_pos hz, List.map_map, List.length_map]
    rfl

/-- C7 witness: one positive-Sharpe set and one all-non-positive set. -/
theorem c7_optimize_weights_sharpe_witness :
    (optimize_weights_sharpe [("A", 1), ("B", -1)] =
      [("A", (1:ℚ)), ("B", -1)].map (fun kv =>
        (kv.1, max 0 kv.2 /
          ([("A", (1:ℚ)), ("B", -1)].map (fun kv2 => max 0 kv2.2)).sum)) ∧
      ((optimize_weights_sharpe [("A", 1), ("B", -1)]).map Prod.snd).sum
        = 1) ∧
    optimize_weights_sharpe [("A", -1), ("B", 0)] =
      [("A", (-1:ℚ)), ("B", 0)].map
        (fun kv => (kv.1, 1 / (([("A", (-1:ℚ)), ("B", 0)]).length : ℚ))) := by
  constructor
  · exact (c7_optimize_weights_sharpe [("A", 1), ("B", -1)]).1
      ⟨("A", 1), by simp, by norm_num⟩
  · exact (c7_optimize_weights_sharpe [("A", -1), ("B", 0)]).2
      (by intro kv hkv
          simp only [List.mem_cons, List.not_mem_nil, or_false] at hkv
          rcases hkv with h | h
          · rw [h]; norm_num
          · rw [h])

/- ### Sharpe ratio and annualized statistics (metrics.py, analysis.py,
factor_test.py) -/

/-- `returns.std()` (pandas, `ddof = 1`): square root of the sample
variance. -/
noncomputable def stdR (xs : List ℚ) : ℝ := Real.sqrt ((sampleVar xs : ℚ) : ℝ)

lemma sampleVar_nonneg (xs : List ℚ) : 0 ≤ sampleVar xs := by
  cases xs with
  | nil => simp [sampleVar, meanQ]
  | cons x l =>
    apply div_nonneg
    · apply List.sum_nonneg
      intro y hy
      obtain ⟨z, _, rfl⟩ := List.mem_map.mp hy
      exact sq_nonneg _
    · have : (1:ℚ) ≤ ((x :: l).length : ℚ) := by
        simp only [List.length_cons]
        push_cast
        linarith [Nat.cast_nonneg (α := ℚ) l.length]
      linarith

lemma stdR_eq_zero_iff (xs : List ℚ) : stdR xs = 0 ↔ sampleVar xs = 0 := by
  rw [stdR, Real.sqrt_eq_zero (by exact_mod_cast sampleVar_nonneg xs)]
  exact_mod_cast Iff.rfl

lemma stdR_pos_of_var_pos (xs : List ℚ) (h : 0 < sampleVar xs) :
    0 < stdR xs := Real.sqrt_pos.mpr (by exact_mod_cast h)

/-- `MetricsCalculator.sharpe_ratio` (metrics.py lines 49-64) and the
identical `PerformanceAnalyzer._sharpe_ratio` (analysis.py lines 61-65):
`excess = returns - rf/ppy`; result is
`excess.mean() / returns.std() * sqrt(ppy)` when `returns.std() != 0`,
else the sentinel `0`. -/
noncomputable def sharpe_ratio (r : List ℚ) (rf : ℚ) (ppy : ℕ) : ℝ :=
  if sampleVar r = 0 then 0
  else ((meanQ (r.map (fun x => x - rf / (ppy : ℚ))) : ℚ) : ℝ) / stdR r *
    Real.sqrt (ppy : ℝ)

/-- C6: the Sharpe-ratio operation returns
`mean(r − rf/ppy) / std(r) * sqrt(ppy)` when `std(r)` is nonzero, the
sentinel 0 (without raising) when `std(r) = 0`, and in particular Sharpe
of `[0,0,0]` is 0. -/
theorem c6_sharpe_ratio :
    (∀ (r : List ℚ) (rf : ℚ) (ppy : ℕ), stdR r = 0 →
      sharpe_ratio r rf ppy = 0) ∧
    (∀ (r : List ℚ) (rf : ℚ) (ppy : ℕ), stdR r ≠ 0 →
      sharpe_ratio r rf ppy =
        ((meanQ (r.map (fun x => x - rf / (ppy : ℚ))) : ℚ) : ℝ) / stdR r *
          Real.sqrt (ppy : ℝ)) ∧
    sharpe_ratio [0, 0, 0] (3/100) 252 = 0 := by
  have hzero : ∀ (r : List ℚ) (rf : ℚ) (ppy : ℕ), stdR r = 0 →
      sharpe_ratio r rf ppy = 0 := by
    intro r rf ppy h
    rw [sharpe_ratio, if_pos ((stdR_eq_zero_iff r).mp h)]
  refine ⟨hzero, ?_, ?_⟩
  · intro r rf ppy h
    rw [sharpe_ratio, if_neg (fun hv => h ((stdR_eq_zero_iff r).mpr hv))]
  · apply hzero
    rw [stdR_eq_zero_iff]
    norm_num [sampleVar, meanQ]

/-- C6 witness: the zero-variance branch applied at `[0,0,0]`. -/
theorem c6_sharpe_ratio_witness :
    stdR [0, 0, 0] = 0 ∧ sharpe_ratio [0, 0, 0] (3/100) 252 = 0 := by
  have hstd : stdR [0, 0, 0] = 0 := by
    rw [stdR_eq_zero_iff]
    norm_num [sampleVar, meanQ]
  exact ⟨hstd, c6_sharpe_ratio.1 [0, 0, 0] (3/100) 252 hstd⟩

/-- `FactorBacktest._annualized_return` (factor_test.py lines 379-384):
`(1 + returns).prod() ** (periods_per_year / len(returns)) − 1`. -/
noncomputable def annualized_return (r : List ℚ) (ppy : ℕ) : ℝ :=
  ((prod1p r : ℚ) : ℝ) ^ ((ppy : ℝ) / (r.length : ℝ)) - 1

/-- `FactorBacktest._annualized_volatility` (factor_test.py lines
386-389): `returns.std() * sqrt(periods_per_year)`. -/
noncomputable def annualized_volatility (r : List ℚ) (ppy : ℕ) : ℝ :=
  stdR r * Real.sqrt (ppy : ℝ)

/-- The `sharpe_ratio` stored by `FactorBacktest.group_backtest`
(factor_test.py lines 358-361): `annual_return / annual_vol` when
`annual_vol != 0`, else 0 — no risk-free-rate subtraction. -/
noncomputable def group_sharpe (r : List ℚ) (ppy : ℕ) : ℝ :=
  if sampleVar r = 0 then 0
  else annualized_return r ppy / annualized_volatility r ppy

lemma annualized_volatility_eq_zero_iff (r : List ℚ) (ppy : ℕ)
    (hppy : 0 < ppy) : annualized_volatility r ppy = 0 ↔ sampleVar r = 0 := by
  rw [annualized_volatility, mul_eq_zero]
  constructor
  · intro h
    rcases h with h | h
    · exact (stdR_eq_zero_iff r).mp h
    · exfalso
      have : (0:ℝ) < Real.sqrt (ppy : ℝ) :=
        Real.sqrt_pos.mpr (by exact_mod_cast hppy)
      linarith
  · intro h
    exact Or.inl ((stdR_eq_zero_iff r).mpr h)

/-- C10: the `sharpe_ratio` stored by `group_backtest` equals the
annualized long-short return divided by the annualized volatility (0 when
that volatility is 0), with no risk-free-rate subtraction; on the return
series `[0.00012, 0.00011]` it is positive while
`MetricsCalculator.sharpe_ratio` is negative, so the two quantities
differ. -/
theorem c10_group_sharpe_differs :
    (∀ (r : List ℚ) (ppy : ℕ), 0 < ppy →
      annualized_volatility r ppy = 0 → group_sharpe r ppy = 0) ∧
    (∀ (r : List ℚ) (ppy : ℕ), 0 < ppy →
      annualized_volatility r ppy ≠ 0 → group_sharpe r ppy =
        annualized_return r ppy / annualized_volatility r ppy) ∧
    group_sharpe [12/100000, 11/100000] 252 ≠
      sharpe_ratio [12/100000, 11/100000] (3/100) 252 := by
  refine ⟨?_, ?_, ?_⟩
  · intro r ppy hppy hvol
    rw [group_sharpe,
      if_pos ((annualized_volatility_eq_zero_iff r ppy hppy).mp hvol)]
  · intro r ppy hppy hvol
    rw [group_sharpe, if_neg
      (fun hv => hvol ((annualized_volatility_eq_zero_iff r ppy hppy).mpr hv))]
  · have hvar : sampleVar [12/100000, 11/100000] = 1/20000000000 := by
      norm_num [sampleVar, meanQ]
    have hvarpos : (0:ℚ) < sampleVar [12/100000, 11/100000] := by
      rw [hvar]; norm_num
    have hstd : 0 < stdR [12/100000, 11/100000] :=
      stdR_pos_of_var_pos _ hvarpos
    have hsqrt : (0:ℝ) < Real.sqrt ((252:ℕ) : ℝ) :=
      Real.sqrt_pos.mpr (by norm_num)
    have hvol : 0 < annualized_volatility [12/100000, 11/100000] 252 :=
      mul_pos hstd hsqrt
    have hgroup : 0 < group_sharpe [12/100000, 11/100000] 252 := by
      rw [group_sharpe, if_neg (ne_of_gt hvarpos)]
      apply div_pos _ hvol
      rw [annualized_return, sub_pos]
      have hprod : (1:ℚ) < prod1p [12/100000, 11/100000] := by
        norm_num [prod1p]
      have hcast : (1:ℝ) < ((prod1p [12/100000, 11/100000] : ℚ) : ℝ) := by
        exact_mod_cast hprod
      have hexp : (0:ℝ) < ((252:ℕ) : ℝ) /
          (([(12:ℚ)/100000, 11/100000].length : ℝ)) := by
        norm_num
      exact (Real.one_lt_rpow_iff_of_pos (by linarith)).mpr
        (Or.inl ⟨hcast, hexp⟩)
    have hsharpe : sharpe_ratio [12/100000, 11/100000] (3/100) 252 < 0 := by
      rw [sharpe_ratio, if_neg (ne_of_gt hvarpos)]
      have hmean : meanQ ([(12:ℚ)/100000, 11/100000].map
          (fun x => x - (3/100) / ((252:ℕ) : ℚ))) < 0 := by
        norm_num [meanQ]
      have hmeanR : ((meanQ ([(12:ℚ)/100000, 11/100000].map
          (fun x => x - (3/100) / ((252:ℕ) : ℚ))) : ℚ) : ℝ) < 0 := by
        exact_mod_cast hmean
      exact mul_neg_of_neg_of_pos (div_neg_of_neg_of_pos hmeanR hstd) hsqrt
    exact ne_of_gt (lt_trans hsharpe hgroup)

/-- C10 witness: the zero-volatility branch applied at the constant
series `[1/10, 1/10]`. -/
theorem c10_group_sharpe_differs_witness :
    group_sharpe [1/10, 1/10] 252 = 0 := by
  apply c10_group_sharpe_differs.1 [1/10, 1/10] 252 (by norm_num)
  have hvar : sampleVar [1/10, 1/10] = 0 := by
    norm_num [sampleVar, meanQ]
  rw [annualized_volatility, (stdR_eq_zero_iff _).mpr hvar, zero_mul]

/- ### Per-date cross-sectional correlation (pandas `Series.corr`,
used by `FactorBacktest.calculate_ic` and `MetricsCalculator.ic`) -/

/-- Numerator of the Pearson correlation over one date's cross-section
(a list of (factor, forward-return) pairs): `Σ (x − x̄)(y − ȳ)`. -/
def corrNum (ps : List (ℚ × ℚ)) : ℚ :=
  (ps.map (fun p => (p.1 - meanQ (ps.map Prod.fst)) *
    (p.2 - meanQ (ps.map Prod.snd)))).sum

/-- `Σ (x − x̄)²`. -/
def corrDenX (ps : List (ℚ × ℚ)) : ℚ :=
  (ps.map (fun p => (p.1 - meanQ (ps.map Prod.fst)) ^ 2)).sum

/-- `Σ (y − ȳ)²`. -/
def corrDenY (ps : List (ℚ × ℚ)) : ℚ :=
  (ps.map (fun p => (p.2 - meanQ (ps.map Prod.snd)) ^ 2)).sum

/-- `pandas.Series.corr(method='pearson')` on one date's cross-section:
`Σ(x−x̄)(y−ȳ) / sqrt(Σ(x−x̄)² · Σ(y−ȳ)²)` (the `1/(n−1)` factors of
covariance and the two standard deviations cancel).  When either
centered sum of squares is 0 — fewer than 2 points, or a constant
column — the float computation is `0/0 = NaN`, modelled as `none`. -/
noncomputable def seriesCorr (ps : List (ℚ × ℚ)) : Option ℝ :=
  if corrDenX ps = 0 ∨ corrDenY ps = 0 then none
  else some (((corrNum ps : ℚ) : ℝ) /
    Real.sqrt (((corrDenX ps : ℚ) : ℝ) * ((corrDenY ps : ℚ) : ℝ)))

/-- Average rank (pandas `method='average'` ranking, used by
`corr(method='spearman')`): 1-based rank, ties receiving the mean of
their positions. -/
def avgRank (xs : List ℚ) (x : ℚ) : ℚ :=
  (xs.countP (fun y => decide (y < x)) : ℚ) +
    ((xs.countP (fun y => decide (y = x)) : ℚ) + 1) / 2

/-- Rank transform of a cross-section: each coordinate replaced by its
average rank within its own column. -/
def rankTransform (ps : List (ℚ × ℚ)) : List (ℚ × ℚ) :=
  ps.map (fun p => (avgRank (ps.map Prod.fst) p.1,
    avgRank (ps.map Prod.snd) p.2))

/-- `pandas.Series.corr(method='spearman')`: Pearson correlation of the
rank-transformed columns. -/
noncomputable def spearmanCorr (ps : List (ℚ × ℚ)) : Option ℝ :=
  seriesCorr (rankTransform ps)

lemma list_map_sum_eq (l : List (ℚ × ℚ)) (h : (ℚ × ℚ) → ℚ) :
    (l.map h).sum = ∑ i ∈ Finset.range l.length, h (l.getD i (0, 0)) := by
  induction l with
  | nil => simp
  | cons p ps ih =>
    rw [List.map_cons, List.sum_cons, ih, List.length_cons,
      Finset.sum_range_succ']
    simp [List.getD, add_comm]

lemma list_cauchy_schwarz (l : List (ℚ × ℚ)) (F G : (ℚ × ℚ) → ℚ) :
    ((l.map (fun p => F p * G p)).sum) ^ 2 ≤
      ((l.map (fun p => F p ^ 2)).sum) * ((l.map (fun p => G p ^ 2)).sum) := by
  rw [list_map_sum_eq, list_map_sum_eq, list_map_sum_eq]
  exact Finset.sum_mul_sq_le_sq_mul_sq _ (fun i => F (l.getD i (0, 0)))
    (fun i => G (l.getD i (0, 0)))

lemma corr_sq_le : ∀ ps : List (ℚ × ℚ),
    corrNum ps ^ 2 ≤ corrDenX ps * corrDenY ps := fun ps =>
  list_cauchy_schwarz ps (fun p => p.1 - meanQ (ps.map Prod.fst))
    (fun p => p.2 - meanQ (ps.map Prod.snd))

lemma corrDenX_nonneg (ps : List (ℚ × ℚ)) : 0 ≤ corrDenX ps := by
  apply List.sum_nonneg
  intro y hy
  obtain ⟨z, _, rfl⟩ := List.mem_map.mp hy
  exact sq_nonneg _

lemma corrDenY_nonneg (ps : List (ℚ × ℚ)) : 0 ≤ corrDenY ps := by
  apply List.sum_nonneg
  intro y hy
  obtain ⟨z, _, rfl⟩ := List.mem_map.mp hy
  exact sq_nonneg _

/-- If the Pearson correlation of a cross-section is defined (not NaN)
it lies in `[−1, 1]`. -/
lemma seriesCorr_bounds (ps : List (ℚ × ℚ)) (c : ℝ)
    (h : seriesCorr ps = some c) : -1 ≤ c ∧ c ≤ 1 := by
  rw [seriesCorr] at h
  by_cases hz : corrDenX ps = 0 ∨ corrDenY ps = 0
  · rw [if_pos hz] at h
    exact Option.noConfusion h
  · rw [if_neg hz] at h
    push_neg at hz
    have hx : 0 < corrDenX ps := lt_of_le_of_ne (corrDenX_nonneg ps)
      (Ne.symm hz.1)
    have hy : 0 < corrDenY ps := lt_of_le_of_ne (corrDenY_nonneg ps)
      (Ne.symm hz.2)
    have hD : (0:ℝ) < ((corrDenX ps : ℚ) : ℝ) * ((corrDenY ps : ℚ) : ℝ) := by
      have : (0:ℚ) < corrDenX ps * corrDenY ps := mul_pos hx hy
      exact_mod_cast this
    have hsqrt : (0:ℝ) < Real.sqrt (((corrDenX ps : ℚ) : ℝ) *
        ((corrDenY ps : ℚ) : ℝ)) := Real.sqrt_pos.mpr hD
    have hnum : |((corrNum ps : ℚ) : ℝ)| ≤
        Real.sqrt (((corrDenX ps : ℚ) : ℝ) * ((corrDenY ps : ℚ) : ℝ)) := by
      rw [Real.le_sqrt (abs_nonneg _) hD.le]
      rw [sq_abs]
      have := corr_sq_le ps
      exact_mod_cast this
    have hc : c = ((corrNum ps : ℚ) : ℝ) /
        Real.sqrt (((corrDenX ps : ℚ) : ℝ) * ((corrDenY ps : ℚ) : ℝ)) :=
      (Option.some_inj.mp h).symm
    have habs : |c| ≤ 1 := by
      rw [hc, abs_div, abs_of_pos hsqrt, div_le_one hsqrt]
      exact hnum
    exact abs_le.mp habs

/-- C8: for every cross-section, the per-date IC computed with either the
Pearson or the Spearman method lies in `[−1, 1]` whenever it is defined
(i.e. is not NaN). -/
theorem c8_ic_bounds (ps : List (ℚ × ℚ)) (c : ℝ) :
    (seriesCorr ps = some c → -1 ≤ c ∧ c ≤ 1) ∧
    (spearmanCorr ps = some c → -1 ≤ c ∧ c ≤ 1) :=
  ⟨seriesCorr_bounds ps c, fun h => seriesCorr_bounds (rankTransform ps) c h⟩

lemma seriesCorr_example :
    seriesCorr [((0:ℚ), (0:ℚ)), (1, 1)] = some 1 := by
  have hx : corrDenX [((0:ℚ), (0:ℚ)), (1, 1)] = 1/2 := by
    norm_num [corrDenX, meanQ]
  have hy : corrDenY [((0:ℚ), (0:ℚ)), (1, 1)] = 1/2 := by
    norm_num [corrDenY, meanQ]
  have hn : corrNum [((0:ℚ), (0:ℚ)), (1, 1)] = 1/2 := by
    norm_num [corrNum, meanQ]
  rw [seriesCorr, if_neg (by rw [hx, hy]; norm_num), hn, hx, hy]
  congr 1
  have hs : Real.sqrt ((((1:ℚ)/2 : ℚ) : ℝ) * (((1:ℚ)/2 : ℚ) : ℝ)) =
      (1/2 : ℝ) := by
    push_cast
    rw [Real.sqrt_mul_self (by norm_num)]
  rw [hs]
  push_cast
  norm_num

/-- C8 witness: the Pearson IC of the two-point cross-section
`[(0,0),(1,1)]` is defined, equals 1, and the bounds hold there. -/
theorem c8_ic_bounds_witness :
    seriesCorr [((0:ℚ), (0:ℚ)), (1, 1)] = some 1 ∧
    (-1 ≤ (1:ℝ) ∧ (1:ℝ) ≤ 1) :=
  ⟨seriesCorr_example,
    (c8_ic_bounds [((0:ℚ), (0:ℚ)), (1, 1)] 1).1 seriesCorr_example⟩

/- ### IC summary aggregation (factor_test.py lines 282-308) -/

/-- Drop the NaN entries of a series (what pandas `skipna=True`
aggregations operate on). -/
def naDrop (xs : List (Option ℚ)) : List ℚ := xs.filterMap id

/-- `ic_series.mean()` (pandas default `skipna=True`). -/
def icMean (xs : List (Option ℚ)) : ℚ := meanQ (naDrop xs)

/-- `ic_series.std()` squared (pandas default `skipna=True`, `ddof=1`). -/
def icVar (xs : List (Option ℚ)) : ℚ := sampleVar (naDrop xs)

/-- Whether an IC entry counts as positive: pandas `ic_series > 0` maps
NaN to `False`. -/
def icIsPos : Option ℚ → Bool
  | none => false
  | some x => decide (0 < x)

/-- `(ic_series > 0).sum() / len(ic_series)` (factor_test.py line 295):
the denominator is the TOTAL number of dates, NaN entries included. -/
def icPositiveRate (xs : List (Option ℚ)) : ℚ :=
  ((xs.countP icIsPos : ℕ) : ℚ) / (xs.length : ℚ)

/-- C2 (amended): `ic_mean` and `ic_std` ignore NaN IC entries (appending
a NaN date leaves them unchanged), and a date whose cross-section has
fewer than 2 instruments gets a NaN IC; but `ic_positive_rate` is the
count of dates with IC > 0 divided by the TOTAL number of dates — NaN
dates stay in the denominator. -/
theorem c2_ic_aggregation_amended (xs : List (Option ℚ)) :
    icMean (xs ++ [none]) = icMean xs ∧
    icVar (xs ++ [none]) = icVar xs ∧
    icPositiveRate xs = ((xs.countP icIsPos : ℕ) : ℚ) / (xs.length : ℚ) ∧
    (∀ cs : List (ℚ × ℚ), cs.length < 2 → seriesCorr cs = none) := by
  have hdrop : naDrop (xs ++ [none]) = naDrop xs := by
    simp [naDrop]
  refine ⟨?_, ?_, rfl, ?_⟩
  · rw [icMean, icMean, hdrop]
  · rw [icVar, icVar, hdrop]
  · intro cs hcs
    match cs, hcs with
    | [], _ =>
      rw [seriesCorr, if_pos]
      left
      simp [corrDenX]
    | [p], _ =>
      rw [seriesCorr, if_pos]
      left
      simp [corrDenX, meanQ]

/-- C2 witness: instantiation at the IC series `[some 1, none]` and the
one-instrument cross-section `[(1, 2)]`. -/
theorem c2_ic_aggregation_amended_witness :
    icMean ([some 1, none] ++ [none]) = icMean [some 1, none] ∧
    icVar ([some 1, none] ++ [none]) = icVar [some 1, none] ∧
    icPositiveRate [some 1, none] =
      (([some (1:ℚ), none].countP icIsPos : ℕ) : ℚ) /
        (([some (1:ℚ), none].length : ℕ) : ℚ) ∧
    seriesCorr [((1:ℚ), (2:ℚ))] = none :=
  ⟨(c2_ic_aggregation_amended [some 1, none]).1,
   (c2_ic_aggregation_amended [some 1, none]).2.1,
   (c2_ic_aggregation_amended [some 1, none]).2.2.1,
   (c2_ic_aggregation_amended [some 1, none]).2.2.2 [(1, 2)] (by norm_num)⟩

/-- C2 counterexample: for the IC series `[some 1, none]` the code's
`ic_positive_rate` is `1/2` (denominator = total number of dates = 2),
while the claim's value — positives over non-NaN count — is `1/1 = 1`. -/
theorem c2_positive_rate_counterexample :
    icPositiveRate [some 1, none] = 1/2 ∧
    (([some (1:ℚ), none].countP icIsPos : ℕ) : ℚ) /
      (((naDrop [some (1:ℚ), none]).length : ℕ) : ℚ) = 1 ∧
    icPositiveRate [some 1, none] ≠
      (([some (1:ℚ), none].countP icIsPos : ℕ) : ℚ) /
        (((naDrop [some (1:ℚ), none]).length : ℕ) : ℚ) := by
  have hcount : [some (1:ℚ), none].countP icIsPos = 1 := by
    simp [List.countP, List.countP.go, icIsPos]
  have hlen : (naDrop [some (1:ℚ), none]).length = 1 := by
    simp [naDrop]
  have h1 : icPositiveRate [some 1, none] = 1/2 := by
    rw [icPositiveRate, hcount]
    norm_num
  have h2 : (([some (1:ℚ), none].countP icIsPos : ℕ) : ℚ) /
      (((naDrop [some (1:ℚ), none]).length : ℕ) : ℚ) = 1 := by
    rw [hcount, hlen]
    norm_num
  exact ⟨h1, h2, by rw [h1, h2]; norm_num⟩

/- ### Group backtest long-short spread (factor_test.py lines 329-356) -/

/-- The distinct group labels of one date's rows, ascending (pandas
`groupby` sorts its keys). -/
def groupLabels (obs : List (ℕ × ℚ)) : List ℕ :=
  ((obs.map Prod.fst).toFinset).sort (· ≤ ·)

/-- The forward returns of the rows assigned to group `g`. -/
def groupVals (obs : List (ℕ × ℚ)) (g : ℕ) : List ℚ :=
  (obs.filter (fun r => decide (r.1 = g))).map Prod.snd

/-- `date_data.groupby('group')[ret].mean()`: per-group mean forward
returns, indexed by ascending group label. -/
def groupMeans (obs : List (ℕ × ℚ)) : List ℚ :=
  (groupLabels obs).map (fun g => meanQ (groupVals obs g))

/-- `group_returns.iloc[:, -1] - group_returns.iloc[:, 0]` for one date:
last column (highest label) minus first column (lowest label). -/
def longShortReturn (obs : List (ℕ × ℚ)) : ℚ :=
  (groupMeans obs).getD ((groupMeans obs).length - 1) 0 -
    (groupMeans obs).getD 0 0

/-- `(1 + long_short_returns).cumprod()` across dates. -/
def longShortCumulative (dates : List (List (ℕ × ℚ))) : List ℚ :=
  cumprod1p (dates.map longShortReturn)

lemma groupLabels_getD_max (obs : List (ℕ × ℚ)) (gmax : ℕ)
    (hmem : gmax ∈ obs.map Prod.fst)
    (hub : ∀ g ∈ obs.map Prod.fst, g ≤ gmax) :
    (groupLabels obs).getD ((groupLabels obs).length - 1) 0 = gmax := by
  have hS : (obs.map Prod.fst).toFinset.Nonempty :=
    ⟨gmax, List.mem_toFinset.mpr hmem⟩
  have hlen : 0 < (groupLabels obs).length := by
    rw [groupLabels, Finset.length_sort]
    exact Finset.card_pos.mpr hS
  have hidx : (groupLabels obs).length - 1 < (groupLabels obs).length :=
    Nat.sub_lt hlen one_pos
  have hmax' : (obs.map Prod.fst).toFinset.max' hS = gmax := by
    apply le_antisymm
    · exact Finset.max'_le _ _ _
        (fun y hy => hub y (List.mem_toFinset.mp hy))
    · exact Finset.le_max' _ _ (List.mem_toFinset.mpr hmem)
  have hsorted := Finset.sorted_last_eq_max'_aux (obs.map Prod.fst).toFinset
    hidx hS
  rw [List.getD_eq_getElem?_getD, List.getElem?_eq_getElem hidx,
    Option.getD_some]
  exact hsorted.trans hmax'

lemma groupLabels_getD_min (obs : List (ℕ × ℚ)) (gmin : ℕ)
    (hmem : gmin ∈ obs.map Prod.fst)
    (hlb : ∀ g ∈ obs.map Prod.fst, gmin ≤ g) :
    (groupLabels obs).getD 0 0 = gmin := by
  have hS : (obs.map Prod.fst).toFinset.Nonempty :=
    ⟨gmin, List.mem_toFinset.mpr hmem⟩
  have hlen : 0 < (groupLabels obs).length := by
    rw [groupLabels, Finset.length_sort]
    exact Finset.card_pos.mpr hS
  have hmin' : (obs.map Prod.fst).toFinset.min' hS = gmin := by
    apply le_antisymm
    · exact Finset.min'_le _ _ (List.mem_toFinset.mpr hmem)
    · exact Finset.le_min' _ _ _
        (fun y hy => hlb y (List.mem_toFinset.mp hy))
  have hsorted := Finset.sorted_zero_eq_min'_aux (obs.map Prod.fst).toFinset
    hlen hS
  rw [List.getD_eq_getElem?_getD, List.getElem?_eq_getElem hlen,
    Option.getD_some]
  exact hsorted.trans hmin'

lemma groupMeans_getD (obs : List (ℕ × ℚ)) (i : ℕ)
    (hi : i < (groupLabels obs).length) :
    (groupMeans obs).getD i 0 =
      meanQ (groupVals obs ((groupLabels obs).getD i 0)) := by
  rw [groupMeans, List.getD_eq_getElem?_getD, List.getElem?_map,
    List.getElem?_eq_getElem hi, List.getD_eq_getElem?_getD,
    List.getElem?_eq_getElem hi]
  rfl

/-- C9: for each date, the long-short spread is the mean return of the
highest-index bucket minus the mean return of the lowest-index bucket
(characterized as the bucket labels that bound all labels of that date),
and the cumulative long-short curve compounds via a running product of
`(1 + spread)` starting implicitly at 1: per-date spreads
`[0.02, −0.01]` give the curve `[1.02, 1.0098]`. -/
theorem c9_long_short_spread (obs : List (ℕ × ℚ)) (gmax gmin : ℕ)
    (hmaxmem : gmax ∈ obs.map Prod.fst)
    (hub : ∀ g ∈ obs.map Prod.fst, g ≤ gmax)
    (hminmem : gmin ∈ obs.map Prod.fst)
    (hlb : ∀ g ∈ obs.map Prod.fst, gmin ≤ g) :
    longShortReturn obs =
      meanQ (groupVals obs gmax) - meanQ (groupVals obs gmin) ∧
    cumprod1p [2/100, -1/100] = [102/100, 10098/10000] := by
  constructor
  · have hS : (obs.map Prod.fst).toFinset.Nonempty :=
      ⟨gmax, List.mem_toFinset.mpr hmaxmem⟩
    have hlen : 0 < (groupLabels obs).length := by
      rw [groupLabels, Finset.length_sort]
      exact Finset.card_pos.mpr hS
    have hidx : (groupLabels obs).length - 1 < (groupLabels obs).length :=
      Nat.sub_lt hlen one_pos
    have hmlen : (groupMeans obs).length = (groupLabels obs).length := by
      rw [groupMeans, List.length_map]
    rw [longShortReturn, hmlen,
      groupMeans_getD obs ((groupLabels obs).length - 1) hidx,
      groupMeans_getD obs 0 hlen,
      groupLabels_getD_max obs gmax hmaxmem hub,
      groupLabels_getD_min obs gmin hminmem hlb]
  · norm_num [cumprod1p, cumprodAux]

/-- C9 witness: a date with two buckets, label 0 returning 10% and label
1 returning 30%. -/
theorem c9_long_short_spread_witness :
    longShortReturn [(0, 1/10), (1, 3/10)] =
      meanQ (groupVals [(0, 1/10), (1, 3/10)] 1) -
        meanQ (groupVals [(0, 1/10), (1, 3/10)] 0) ∧
    cumprod1p [2/100, -1/100] = [102/100, 10098/10000] := by
  apply c9_long_short_spread [(0, 1/10), (1, 3/10)] 1 0
  · simp
  · intro g hg
    simp only [List.map_cons, List.map_nil, List.mem_cons,
      List.not_mem_nil, or_false] at hg
    rcases hg with h | h <;> omega
  · simp
  · intro g hg
    exact Nat.zero_le g

end AlphaDiscovery
